import Mathlib

/-!
Verification of the search/highlight engine and the HTML-to-Markdown
conversion pipeline of the Workspace component (src/components/Workspace.tsx).

Strings are modelled as `List Char` (the host language's native text unit).
The query compiler escapes every regex metacharacter before building the
pattern (`query.replace(/[.*+?^${}()|[\]\\]/g, ...)` in `getHighlightParts`
and `searchMatchesCount`), so the compiled pattern matches exactly the
literal query text, case-folded under the `i` flag, optionally wrapped in
`\b` word-boundary assertions for whole-word mode.  The model below embeds
the semantics of that escaped pattern directly: literal (case-folded)
matching plus explicit word-boundary tests.

The regex scan (used both by the capturing `String.split` in
`getHighlightParts` and by the global `String.match` in
`searchMatchesCount`) is leftmost, non-overlapping, advancing one character
on failure and past the whole match on success.  It is embedded as a
fuel-indexed structural recursion (`scanTokensF`), with fuel instantiated to
the content length, so that all definitions compute by kernel reduction.
-/

namespace Notepad

/-- `SearchOptions` from src/types.ts: case sensitivity and whole-word flags. -/
structure SearchOptions where
  caseSensitive : Bool
  wholeWord : Bool
deriving DecidableEq, Repr

/-- JavaScript `\w` character class: `[A-Za-z0-9_]`. -/
def isWordChar (c : Char) : Bool :=
  c.isAlphanum || c = '_'

/-- Case folding used by the `i` regex flag (ASCII lower-casing, as in
`Char.toLower`); the identity when the search is case sensitive. -/
def foldChar (cs : Bool) (c : Char) : Char :=
  if cs then c else c.toLower

/-- Case folding lifted to strings. -/
def foldStr (cs : Bool) (s : List Char) : List Char :=
  s.map (foldChar cs)

/-- Word-character test on an optional character; the absence of a character
(string edge) counts as a non-word position, as for JavaScript `\b`. -/
def optWord : Option Char → Bool
  | some c => isWordChar c
  | none => false

/-- JavaScript `\b`: a word boundary lies between two positions exactly when
their word-character statuses differ. -/
def isBoundary (a b : Option Char) : Bool :=
  optWord a != optWord b

/-- Does the compiled pattern match at the current position?  `prev` is the
character immediately before the position (needed by the leading `\b`), `s`
the remaining content.  The pattern is the escaped literal query `q`,
optionally `\b`-anchored on both sides (`wholeWord`). -/
def matchAt (cs ww : Bool) (q : List Char) (prev : Option Char) (s : List Char) : Bool :=
  (foldStr cs q).isPrefixOf (foldStr cs s) &&
    (!ww ||
      (isBoundary prev s.head? &&
        isBoundary (s.take q.length).getLast? (s.drop q.length).head?))

/-- The capturing-split scan of `content.split(new RegExp(pattern, flags))`:
it produces the alternating list of non-matching pieces and captured match
tokens, each tagged with whether it was a capture.  `acc` is the current
piece accumulated in reverse; `prev` the previously consumed character.
The scan is leftmost and non-overlapping: on a match it emits the pending
piece and the captured text and resumes after the match; otherwise it moves
one character into the pending piece.  The fuel argument only drives the
structural recursion; it is always instantiated to at least `s.length`,
which makes the exhaustion branch unreachable. -/
def scanTokensF (cs ww : Bool) (qh : Char) (qt : List Char) :
    Nat → Option Char → List Char → List Char → List (List Char × Bool)
  | _, _, acc, [] => [(acc.reverse, false)]
  | 0, _, acc, s => [(acc.reverse ++ s, false)]
  | fuel + 1, prev, acc, c :: rest =>
    if matchAt cs ww (qh :: qt) prev (c :: rest) then
      (acc.reverse, false) :: ((c :: rest).take (qt.length + 1), true) ::
        scanTokensF cs ww qh qt fuel (((c :: rest).take (qt.length + 1)).getLast?) []
          (rest.drop qt.length)
    else
      scanTokensF cs ww qh qt fuel (some c) (c :: acc) rest

/-- One segment of `getHighlightParts`: a span of text and its match flag. -/
structure Segment where
  text : List Char
  isMatch : Bool
deriving DecidableEq, Repr

/-- The classification test `new RegExp(`^${pattern}$`, flags).test(part)`
applied to an isolated token: the token must equal the (case-folded) query,
and in whole-word mode the anchored `\b`s additionally require the token's
first and last characters to be word characters (the string edges count as
non-word). -/
def fullMatch (cs ww : Bool) (q t : List Char) : Bool :=
  (foldStr cs t == foldStr cs q) &&
    (!ww || (isBoundary none t.head? && isBoundary t.getLast? none))

/-- `getHighlightParts(content, query, options)` from Workspace.tsx lines
29-42: empty content yields `[]`; an empty query yields a single
non-matching segment; otherwise the content is split on the compiled
pattern with a capturing group and every resulting token is re-classified
with the anchored full-match test. -/
def getHighlightParts (content query : List Char) (options : SearchOptions) : List Segment :=
  if content.isEmpty then []
  else
    match query with
    | [] => [⟨content, false⟩]
    | qh :: qt =>
      (scanTokensF options.caseSensitive options.wholeWord qh qt content.length
          none [] content).map
        (fun tk => ⟨tk.1, fullMatch options.caseSensitive options.wholeWord (qh :: qt) tk.1⟩)

/-- The independent global match count of
`content.match(new RegExp(pattern, flags))`, as a dedicated recursion over
the content (same leftmost non-overlapping scan the regex engine performs). -/
def countMatchesF (cs ww : Bool) (qh : Char) (qt : List Char) :
    Nat → Option Char → List Char → Nat
  | _, _, [] => 0
  | 0, _, _ => 0
  | fuel + 1, prev, c :: rest =>
    if matchAt cs ww (qh :: qt) prev (c :: rest) then
      countMatchesF cs ww qh qt fuel (((c :: rest).take (qt.length + 1)).getLast?)
        (rest.drop qt.length) + 1
    else
      countMatchesF cs ww qh qt fuel (some c) rest

/-- `searchMatchesCount` from Workspace.tsx lines 259-269: 0 for an empty
query or empty content, otherwise the number of global matches of the
compiled pattern in the content. -/
def searchMatchesCount (content query : List Char) (options : SearchOptions) : Nat :=
  if content.isEmpty then 0
  else
    match query with
    | [] => 0
    | qh :: qt =>
      countMatchesF options.caseSensitive options.wholeWord qh qt content.length none content

/-- The ordered list of matched substrings found by the scan (the capture
tokens), again as a fuel-indexed structural recursion. -/
def findMatchesF (cs ww : Bool) (qh : Char) (qt : List Char) :
    Nat → Option Char → List Char → List (List Char)
  | _, _, [] => []
  | 0, _, _ => []
  | fuel + 1, prev, c :: rest =>
    if matchAt cs ww (qh :: qt) prev (c :: rest) then
      (c :: rest).take (qt.length + 1) ::
        findMatchesF cs ww qh qt fuel (((c :: rest).take (qt.length + 1)).getLast?)
          (rest.drop qt.length)
    else
      findMatchesF cs ww qh qt fuel (some c) rest

/-- Matched substrings of a whole document, fuel instantiated. -/
def findMatchesL (cs ww : Bool) (qh : Char) (qt : List Char) (s : List Char) : List (List Char) :=
  findMatchesF cs ww qh qt s.length none s

/-- `handleNextMatch` from Workspace.tsx lines 331-335 (the index update it
passes to `scrollToMatch`): a no-op when the match count is 0, otherwise the
cyclic successor. -/
def handleNextMatch (total idx : Nat) : Nat :=
  if total = 0 then idx else (idx + 1) % total

/-- `handlePrevMatch` from Workspace.tsx lines 337-341: a no-op when the
match count is 0, otherwise `(currentMatchIndex - 1 + total) % total`; for
`total > 0` this integer expression is non-negative and equals
`(idx + total - 1) % total` over `Nat`. -/
def handlePrevMatch (total idx : Nat) : Nat :=
  if total = 0 then idx else (idx + total - 1) % total

/-- The Workspace component state relevant to search, from the `useState`
hooks of Workspace.tsx (searchQuery, searchOptions, currentMatchIndex,
isSearchVisible) together with the active note's content. -/
structure WorkspaceSearchState where
  searchQuery : List Char
  searchOptions : SearchOptions
  currentMatchIndex : Nat
  isSearchVisible : Bool
  noteContent : List Char
deriving DecidableEq, Repr

/-- The `searchMatchesCount` `useMemo`: a value derived from the current
document, query and options, hence recomputed on every state change. -/
def totalMatches (st : WorkspaceSearchState) : Nat :=
  searchMatchesCount st.noteContent st.searchQuery st.searchOptions

/-- The search input's `onChange` handler (Workspace.tsx line 563):
`setSearchQuery(e.target.value); setCurrentMatchIndex(0)`. -/
def onSearchInputChange (v : List Char) (st : WorkspaceSearchState) : WorkspaceSearchState :=
  { st with searchQuery := v, currentMatchIndex := 0 }

/-- The case-sensitivity toggle button (Workspace.tsx line 581): it only
flips the option. -/
def toggleCaseSensitive (st : WorkspaceSearchState) : WorkspaceSearchState :=
  { st with searchOptions := { st.searchOptions with
      caseSensitive := !st.searchOptions.caseSensitive } }

/-- The whole-word toggle button (Workspace.tsx line 582): it only flips
the option. -/
def toggleWholeWord (st : WorkspaceSearchState) : WorkspaceSearchState :=
  { st with searchOptions := { st.searchOptions with
      wholeWord := !st.searchOptions.wholeWord } }

/-- The `useEffect` on `[initialSearchQuery, activeNoteId]` (Workspace.tsx
lines 246-257), as the eventual state after a document switch: a truthy
(non-empty) initial query is installed, the bar shown and match 0 scrolled
to (which sets `currentMatchIndex` to 0); otherwise the bar is hidden and
the query cleared, with `currentMatchIndex` left untouched. -/
def onActiveNoteChange (content initialSearchQuery : List Char)
    (st : WorkspaceSearchState) : WorkspaceSearchState :=
  if initialSearchQuery.isEmpty then
    { st with noteContent := content, isSearchVisible := false, searchQuery := [] }
  else
    { st with
      noteContent := content
      searchQuery := initialSearchQuery
      isSearchVisible := true
      currentMatchIndex := 0 }

example : getHighlightParts "catcat".data "cat".data ⟨false, false⟩ =
    [⟨[], false⟩, ⟨"cat".data, true⟩, ⟨[], false⟩, ⟨"cat".data, true⟩, ⟨[], false⟩] := by
  decide

example : searchMatchesCount "a!b".data "!".data ⟨false, true⟩ = 1 := by decide

example : ((getHighlightParts "a!b".data "!".data ⟨false, true⟩).filter
    (fun sg => sg.isMatch)).length = 0 := by decide

/-! ### The split concatenation invariant -/

/-- The tokens produced by the capturing split concatenate, in order, to the
pending piece followed by the remaining input — for every fuel value. -/
theorem scanTokensF_join (cs ww : Bool) (qh : Char) (qt : List Char) :
    ∀ (fuel : Nat) (prev : Option Char) (acc s : List Char),
    ((scanTokensF cs ww qh qt fuel prev acc s).map Prod.fst).flatten = acc.reverse ++ s := by
  intro fuel
  induction fuel with
  | zero =>
    intro prev acc s
    cases s <;> simp [scanTokensF]
  | succ f ih =>
    intro prev acc s
    cases s with
    | nil => simp [scanTokensF]
    | cons c rest =>
      by_cases h : matchAt cs ww (qh :: qt) prev (c :: rest)
      · simp only [scanTokensF, if_pos h, List.map_cons, List.flatten_cons, ih,
          List.reverse_nil, List.nil_append, List.append_nil]
        rw [show rest.drop qt.length = (c :: rest).drop (qt.length + 1) from rfl,
          List.take_append_drop]
      · simp only [scanTokensF, if_neg h, ih, List.reverse_cons, List.append_assoc,
          List.singleton_append]

/-- C2.  Round-trip invariant: for every content, every query (including
the empty one) and every option combination, concatenating the `text`
fields of the segments returned by `getHighlightParts` reproduces the
content exactly. -/
theorem getHighlightParts_join (content query : List Char) (options : SearchOptions) :
    ((getHighlightParts content query options).map Segment.text).flatten = content := by
  unfold getHighlightParts
  by_cases hc : content.isEmpty
  · rw [List.isEmpty_iff] at hc
    simp [hc]
  · cases query with
    | nil => simp [hc]
    | cons qh qt =>
      simp only [if_neg hc, List.map_map]
      have : (Segment.text ∘ fun tk : List Char × Bool =>
          Segment.mk tk.1 (fullMatch options.caseSensitive options.wholeWord (qh :: qt) tk.1)) =
          Prod.fst := rfl
      rw [this, scanTokensF_join]
      simp

/-! ### Character-level facts: `\w` is invariant under ASCII case folding -/

theorem char_toNat_ofNat (m : Nat) (h : m.isValidChar) : (Char.ofNat m).toNat = m := by
  rw [Char.ofNat, dif_pos h]
  rfl

theorem uint32_le_iff_toNat_le {a b : UInt32} : a ≤ b ↔ a.toNat ≤ b.toNat := Iff.rfl

theorem char_eq_iff_toNat_eq {c d : Char} : c = d ↔ c.toNat = d.toNat := by
  constructor
  · intro h; rw [h]
  · intro h; exact Char.ext (UInt32.toNat.inj h)

/-- `isWordChar` in terms of the character's code point. -/
theorem isWordChar_iff_toNat (c : Char) :
    isWordChar c = true ↔
      ((65 ≤ c.toNat ∧ c.toNat ≤ 90) ∨ (97 ≤ c.toNat ∧ c.toNat ≤ 122) ∨
        (48 ≤ c.toNat ∧ c.toNat ≤ 57) ∨ c.toNat = 95) := by
  simp only [isWordChar, Char.isAlphanum, Char.isAlpha, Char.isUpper, Char.isLower,
    Char.isDigit, Bool.or_eq_true, decide_eq_true_iff, Bool.and_eq_true, ge_iff_le,
    uint32_le_iff_toNat_le, char_eq_iff_toNat_eq]
  have h65 : (65 : UInt32).toNat = 65 := rfl
  have h90 : (90 : UInt32).toNat = 90 := rfl
  have h97 : (97 : UInt32).toNat = 97 := rfl
  have h122 : (122 : UInt32).toNat = 122 := rfl
  have h48 : (48 : UInt32).toNat = 48 := rfl
  have h57 : (57 : UInt32).toNat = 57 := rfl
  have hu : ('_' : Char).toNat = 95 := rfl
  rw [h65, h90, h97, h122, h48, h57, hu]
  simp only [Char.toNat, or_assoc]

/-- ASCII lower-casing preserves membership in the `\w` class. -/
theorem isWordChar_toLower (c : Char) : isWordChar c.toLower = isWordChar c := by
  unfold Char.toLower
  by_cases h : c.toNat ≥ 65 ∧ c.toNat ≤ 90
  · rw [if_pos h]
    have hv : (c.toNat + 32).isValidChar := Or.inl (by omega)
    have ht : (Char.ofNat (c.toNat + 32)).toNat = c.toNat + 32 := char_toNat_ofNat _ hv
    have h1 : isWordChar (Char.ofNat (c.toNat + 32)) = true := by
      rw [isWordChar_iff_toNat, ht]; omega
    have h2 : isWordChar c = true := by
      rw [isWordChar_iff_toNat]; omega
    rw [h1, h2]
  · rw [if_neg h]

/-- Case folding (for either flag value) preserves the `\w` class. -/
theorem isWordChar_foldChar (cs : Bool) (c : Char) :
    isWordChar (foldChar cs c) = isWordChar c := by
  unfold foldChar
  by_cases h : cs = true
  · rw [if_pos h]
  · rw [if_neg h, isWordChar_toLower]

/-! ### Agreement of the scan with the anchored re-classification test -/

/-- Does the query start and end with word characters?  (Trivially true of
the empty query.)  Under whole-word search this is the condition under
which the anchored `^\b…\b$` re-classification agrees with the scan. -/
def wordEnds : List Char → Bool
  | [] => true
  | qh :: qt => isWordChar qh && isWordChar (qt.getLastD qh)

theorem getLast?_cons_eq {α : Type} (a : α) (l : List α) :
    (a :: l).getLast? = some (l.getLastD a) := by
  induction l generalizing a with
  | nil => rfl
  | cons b l ih => rw [List.getLast?_cons_cons, ih, List.getLastD_cons]

theorem foldStr_length (cs : Bool) (s : List Char) : (foldStr cs s).length = s.length :=
  List.length_map ..

theorem isBoundary_none_left (x : Option Char) : isBoundary none x = optWord x := by
  cases x <;> simp [isBoundary, optWord]

theorem isBoundary_none_right (x : Option Char) : isBoundary x none = optWord x := by
  cases x <;> simp [isBoundary, optWord]

theorem matchAt_true_elim {cs ww : Bool} {q : List Char} {prev : Option Char} {s : List Char}
    (h : matchAt cs ww q prev s = true) :
    (foldStr cs q).isPrefixOf (foldStr cs s) = true ∧
      (ww = true → isBoundary prev s.head? = true ∧
        isBoundary (s.take q.length).getLast? (s.drop q.length).head? = true) := by
  unfold matchAt at h
  cases ww <;> simp_all

theorem fullMatch_true_elim {cs ww : Bool} {q t : List Char}
    (h : fullMatch cs ww q t = true) :
    foldStr cs t = foldStr cs q ∧
      (ww = true → optWord t.head? = true ∧ optWord t.getLast? = true) := by
  unfold fullMatch at h
  cases ww <;> simp_all [isBoundary_none_left, isBoundary_none_right]

/-- A matched capture has the same case-folded text as the query. -/
theorem capture_fold_eq {cs ww : Bool} {qh : Char} {qt : List Char} {prev : Option Char}
    {c : Char} {rest : List Char}
    (hMatch : matchAt cs ww (qh :: qt) prev (c :: rest) = true) :
    foldStr cs ((c :: rest).take (qt.length + 1)) = foldStr cs (qh :: qt) := by
  have hpre := (matchAt_true_elim hMatch).1
  rw [List.isPrefixOf_iff_prefix] at hpre
  have htake := List.prefix_iff_eq_take.mp hpre
  rw [foldStr_length, List.length_cons] at htake
  have hmt : foldStr cs ((c :: rest).take (qt.length + 1)) =
      (foldStr cs (c :: rest)).take (qt.length + 1) := by
    simp [foldStr, List.map_take]
  rw [hmt, ← htake]

/-- Every capture token passes the anchored re-classification, provided the
search is not whole-word or the query starts and ends with word characters. -/
theorem capture_fullMatch {cs ww : Bool} {qh : Char} {qt : List Char}
    (hcond : ww = false ∨ (isWordChar qh = true ∧ isWordChar (qt.getLastD qh) = true))
    {prev : Option Char} {c : Char} {rest : List Char}
    (hMatch : matchAt cs ww (qh :: qt) prev (c :: rest) = true) :
    fullMatch cs ww (qh :: qt) ((c :: rest).take (qt.length + 1)) = true := by
  have hfold := capture_fold_eq hMatch
  cases hww : ww with
  | false =>
    unfold fullMatch
    rw [hfold]
    simp
  | true =>
    rcases hcond with hc | ⟨hqh, hql⟩
    · rw [hww] at hc; cases hc
    have hhead : ((c :: rest).take (qt.length + 1)).head? = some c := by
      rw [List.take_succ_cons]; rfl
    have hfc : foldChar cs c = foldChar cs qh := by
      have h0 := congrArg List.head? hfold
      rw [foldStr, foldStr, List.head?_map, List.head?_map, hhead] at h0
      simpa using h0
    have hwc : isWordChar c = true := by
      rw [← isWordChar_foldChar cs c, hfc, isWordChar_foldChar, hqh]
    have hlastq : (qh :: qt).getLast? = some (qt.getLastD qh) := getLast?_cons_eq qh qt
    have hmlast : ((c :: rest).take (qt.length + 1)).getLast? =
        some ((rest.take qt.length).getLastD c) := by
      rw [List.take_succ_cons, getLast?_cons_eq]
    have hlastm := congrArg List.getLast? hfold
    rw [foldStr, foldStr, List.getLast?_map, List.getLast?_map, hlastq, hmlast] at hlastm
    have hwml : isWordChar ((rest.take qt.length).getLastD c) = true := by
      have hfl : foldChar cs ((rest.take qt.length).getLastD c) =
          foldChar cs (qt.getLastD qh) := by
        simp only [Option.map] at hlastm
        exact Option.some.inj hlastm
      rw [← isWordChar_foldChar cs _, hfl, isWordChar_foldChar, hql]
    unfold fullMatch
    rw [hfold, hhead, hmlast, isBoundary_none_left, isBoundary_none_right]
    rw [List.getLastD_eq_getLast?] at hwml
    simp [optWord, hwc, hwml]

/-- A pending piece emitted at the end of the content never passes the
anchored re-classification, given the scan's failed attempt at the piece's
start (`hFail`) and the boundary information inherited from the preceding
capture (`hB`). -/
theorem piece_not_fullMatch_end {cs ww : Bool} {qh : Char} {qt : List Char}
    {prev0 : Option Char} {acc : List Char}
    (hFail : acc ≠ [] → matchAt cs ww (qh :: qt) prev0 acc.reverse = false)
    (hB : ww = true → optWord prev0 = true → optWord acc.reverse.head? = false) :
    fullMatch cs ww (qh :: qt) acc.reverse = false := by
  cases hfm : fullMatch cs ww (qh :: qt) acc.reverse with
  | false => rfl
  | true =>
    exfalso
    obtain ⟨hfold, hwwb⟩ := fullMatch_true_elim hfm
    have hlen : acc.reverse.length = qt.length + 1 := by
      have h0 := congrArg List.length hfold
      simpa [foldStr_length] using h0
    have hne : acc ≠ [] := by
      intro h; subst h; simp at hlen
    have hfail := hFail hne
    have hpre : (foldStr cs (qh :: qt)).isPrefixOf (foldStr cs acc.reverse) = true := by
      rw [List.isPrefixOf_iff_prefix, hfold]
    cases hww : ww with
    | false =>
      subst hww
      unfold matchAt at hfail
      rw [hpre] at hfail
      simp at hfail
    | true =>
      subst hww
      obtain ⟨hhd, hlast⟩ := hwwb rfl
      by_cases hp : optWord prev0 = true
      · have hbf := hB rfl hp
        rw [hbf] at hhd
        cases hhd
      · have hpf : optWord prev0 = false := by
          revert hp; cases optWord prev0 <;> simp
        have hb1 : isBoundary prev0 acc.reverse.head? = true := by
          unfold isBoundary; rw [hpf, hhd]; rfl
        have htk : acc.reverse.take (qh :: qt).length = acc.reverse := by
          rw [List.length_cons, ← hlen, List.take_length]
        have hdp : acc.reverse.drop (qh :: qt).length = [] := by
          rw [List.length_cons, ← hlen, List.drop_length]
        have hb2 : isBoundary (acc.reverse.take (qh :: qt).length).getLast?
            (acc.reverse.drop (qh :: qt).length).head? = true := by
          rw [htk, hdp]
          unfold isBoundary
          rw [hlast]
          rfl
        unfold matchAt at hfail
        rw [hpre, hb1, hb2] at hfail
        simp at hfail

/-- A pending piece emitted because a capture starts right after it never
passes the anchored re-classification. -/
theorem piece_not_fullMatch_mid {cs ww : Bool} {qh : Char} {qt : List Char}
    (hcond : ww = false ∨ (isWordChar qh = true ∧ isWordChar (qt.getLastD qh) = true))
    {prev0 prev : Option Char} {acc : List Char} {c : Char} {rest : List Char}
    (hPrev : prev = (match acc with | [] => prev0 | a :: _ => some a))
    (hFail : acc ≠ [] → matchAt cs ww (qh :: qt) prev0 (acc.reverse ++ (c :: rest)) = false)
    (hMatch : matchAt cs ww (qh :: qt) prev (c :: rest) = true) :
    fullMatch cs ww (qh :: qt) acc.reverse = false := by
  cases hfm : fullMatch cs ww (qh :: qt) acc.reverse with
  | false => rfl
  | true =>
    exfalso
    obtain ⟨hfold, hwwb⟩ := fullMatch_true_elim hfm
    have hlen : acc.reverse.length = qt.length + 1 := by
      have h0 := congrArg List.length hfold
      simpa [foldStr_length] using h0
    have hne : acc ≠ [] := by
      intro h; subst h; simp at hlen
    cases hww : ww with
    | false =>
      subst hww
      have hfail := hFail hne
      have hpre : (foldStr cs (qh :: qt)).isPrefixOf
          (foldStr cs (acc.reverse ++ (c :: rest))) = true := by
        rw [List.isPrefixOf_iff_prefix]
        have : foldStr cs (acc.reverse ++ (c :: rest)) =
            foldStr cs acc.reverse ++ foldStr cs (c :: rest) := List.map_append ..
        rw [this, ← hfold]
        exact List.prefix_append ..
      unfold matchAt at hfail
      rw [hpre] at hfail
      simp at hfail
    | true =>
      subst hww
      rcases hcond with hc | ⟨hqh, _⟩
      · cases hc
      cases acc with
      | nil => exact hne rfl
      | cons a acc' =>
        have hprev : prev = some a := hPrev
        obtain ⟨_, hl⟩ := hwwb rfl
        have hwa : isWordChar a = true := by
          rw [List.getLast?_reverse] at hl
          simpa [optWord] using hl
        have hbd := ((matchAt_true_elim hMatch).2 rfl).1
        rw [hprev] at hbd
        have hpre2 := (matchAt_true_elim hMatch).1
        have hfc : foldChar cs c = foldChar cs qh := by
          rw [List.isPrefixOf_iff_prefix] at hpre2
          obtain ⟨t, ht⟩ := hpre2
          have h0 := congrArg List.head? ht
          have h1 : foldChar cs qh = foldChar cs c := by simpa [foldStr] using h0
          exact h1.symm
        have hwc : isWordChar c = true := by
          rw [← isWordChar_foldChar cs c, hfc, isWordChar_foldChar, hqh]
        unfold isBoundary at hbd
        simp only [optWord, List.head?_cons, hwa, hwc] at hbd
        cases hbd

theorem rev_cons_append (c : Char) (acc rest : List Char) :
    (c :: acc).reverse ++ rest = acc.reverse ++ (c :: rest) := by
  simp [List.reverse_cons, List.append_assoc]

theorem optWord_of_isBoundary {x y : Option Char} (h : isBoundary x y = true)
    (hx : optWord x = true) : optWord y = false := by
  unfold isBoundary at h
  rw [hx] at h
  revert h
  cases optWord y <;> simp

/-- Classification invariant for the capturing split: with whole-word off,
or a query that starts and ends with word characters, every token is
classified by the anchored full-match test exactly according to whether it
was a capture.  `prev0` is the scan state at the start of the pending
piece, `hFail` the scan's failed match attempt there, and `hB` the boundary
information inherited from the preceding capture. -/
theorem scanTokensF_classify {cs ww : Bool} {qh : Char} {qt : List Char}
    (hcond : ww = false ∨ (isWordChar qh = true ∧ isWordChar (qt.getLastD qh) = true)) :
    ∀ (f : Nat) (prev0 prev : Option Char) (acc s : List Char),
    s.length ≤ f →
    prev = (match acc with | [] => prev0 | a :: _ => some a) →
    (acc ≠ [] → matchAt cs ww (qh :: qt) prev0 (acc.reverse ++ s) = false) →
    (ww = true → optWord prev0 = true → optWord (acc.reverse ++ s).head? = false) →
    ∀ tb ∈ scanTokensF cs ww qh qt f prev acc s,
      fullMatch cs ww (qh :: qt) tb.1 = tb.2 := by
  intro f
  induction f with
  | zero =>
    intro prev0 prev acc s hf hPrev hFail hB tb htb
    have hs : s = [] := List.eq_nil_of_length_eq_zero (Nat.le_zero.mp hf)
    subst hs
    simp only [scanTokensF, List.mem_singleton] at htb
    subst htb
    exact piece_not_fullMatch_end (by simpa using hFail) (by simpa using hB)
  | succ f ih =>
    intro prev0 prev acc s hf hPrev hFail hB tb htb
    cases s with
    | nil =>
      simp only [scanTokensF, List.mem_singleton] at htb
      subst htb
      exact piece_not_fullMatch_end (by simpa using hFail) (by simpa using hB)
    | cons c rest =>
      rw [List.length_cons, Nat.succ_le_succ_iff] at hf
      by_cases h : matchAt cs ww (qh :: qt) prev (c :: rest)
      · simp only [scanTokensF, if_pos h, List.mem_cons] at htb
        rcases htb with rfl | rfl | htb
        · exact piece_not_fullMatch_mid hcond hPrev hFail h
        · exact capture_fullMatch hcond h
        · refine ih (((c :: rest).take (qt.length + 1)).getLast?)
            (((c :: rest).take (qt.length + 1)).getLast?) [] (rest.drop qt.length)
            ?_ rfl (fun hc => absurd rfl hc) ?_ tb htb
          · rw [List.length_drop]; omega
          · intro hwt hpw
            have hbd := ((matchAt_true_elim h).2 hwt).2
            have hdrop : (c :: rest).drop (qh :: qt).length = rest.drop qt.length := by
              rw [List.length_cons, List.drop_succ_cons]
            rw [hdrop] at hbd
            have := optWord_of_isBoundary hbd hpw
            simpa using this
      · simp only [scanTokensF, if_neg h] at htb
        refine ih prev0 (some c) (c :: acc) rest hf rfl ?_ ?_ tb htb
        · intro _
          rw [rev_cons_append]
          cases acc with
          | nil =>
            have hp0 : prev = prev0 := hPrev
            rw [← hp0]
            simp only [List.reverse_nil, List.nil_append]
            revert h
            cases matchAt cs ww (qh :: qt) prev (c :: rest) <;> simp
          | cons a acc' =>
            exact hFail (by simp)
        · intro hwt hpw
          rw [rev_cons_append]
          exact hB hwt hpw

/-! ### Relating the three scan variants -/

theorem countMatchesF_eq_filter (cs ww : Bool) (qh : Char) (qt : List Char) :
    ∀ (f : Nat) (prev : Option Char) (acc s : List Char),
    countMatchesF cs ww qh qt f prev s =
      ((scanTokensF cs ww qh qt f prev acc s).filter (fun tk => tk.2)).length := by
  intro f
  induction f with
  | zero =>
    intro prev acc s
    cases s <;> simp [countMatchesF, scanTokensF]
  | succ f ih =>
    intro prev acc s
    cases s with
    | nil => simp [countMatchesF, scanTokensF]
    | cons c rest =>
      by_cases h : matchAt cs ww (qh :: qt) prev (c :: rest)
      · simp only [countMatchesF, scanTokensF, if_pos h, List.filter_cons]
        simp [ih _ ([] : List Char)]
      · simp only [countMatchesF, scanTokensF, if_neg h]
        exact ih _ (c :: acc) rest

theorem findMatchesF_eq_filter (cs ww : Bool) (qh : Char) (qt : List Char) :
    ∀ (f : Nat) (prev : Option Char) (acc s : List Char),
    findMatchesF cs ww qh qt f prev s =
      ((scanTokensF cs ww qh qt f prev acc s).filter (fun tk => tk.2)).map Prod.fst := by
  intro f
  induction f with
  | zero =>
    intro prev acc s
    cases s <;> simp [findMatchesF, scanTokensF]
  | succ f ih =>
    intro prev acc s
    cases s with
    | nil => simp [findMatchesF, scanTokensF]
    | cons c rest =>
      by_cases h : matchAt cs ww (qh :: qt) prev (c :: rest)
      · simp only [findMatchesF, scanTokensF, if_pos h, List.filter_cons]
        simp [ih _ ([] : List Char)]
      · simp only [findMatchesF, scanTokensF, if_neg h]
        exact ih _ (c :: acc) rest

/-- The classification invariant at the top-level call. -/
theorem scanTokens_classified {cs ww : Bool} {qh : Char} {qt : List Char}
    (hcond : ww = false ∨ (isWordChar qh = true ∧ isWordChar (qt.getLastD qh) = true))
    (content : List Char) :
    ∀ tb ∈ scanTokensF cs ww qh qt content.length none [] content,
      fullMatch cs ww (qh :: qt) tb.1 = tb.2 := by
  refine scanTokensF_classify hcond content.length none none [] content le_rfl rfl
    (fun hc => absurd rfl hc) ?_
  intro _ hp
  simp [optWord] at hp

theorem filter_length_of_classified (cs ww : Bool) (q : List Char) :
    ∀ (l : List (List Char × Bool)),
    (∀ tb ∈ l, fullMatch cs ww q tb.1 = tb.2) →
    ((l.map (fun tk => Segment.mk tk.1 (fullMatch cs ww q tk.1))).filter
        (fun sg => sg.isMatch)).length = (l.filter (fun tk => tk.2)).length := by
  intro l
  induction l with
  | nil => intro _; rfl
  | cons tb l ih =>
    intro hcl
    have h1 := hcl tb (List.mem_cons_self ..)
    have ih2 := ih (fun x hx => hcl x (List.mem_cons_of_mem _ hx))
    cases h2 : tb.2 with
    | true => simp [List.filter_cons, h1, h2, ih2]
    | false => simp [List.filter_cons, h1, h2, ih2]

theorem filter_map_of_classified (cs ww : Bool) (q : List Char) :
    ∀ (l : List (List Char × Bool)),
    (∀ tb ∈ l, fullMatch cs ww q tb.1 = tb.2) →
    (((l.map (fun tk => Segment.mk tk.1 (fullMatch cs ww q tk.1))).filter
        (fun sg => sg.isMatch)).map Segment.text) =
      (l.filter (fun tk => tk.2)).map Prod.fst := by
  intro l
  induction l with
  | nil => intro _; rfl
  | cons tb l ih =>
    intro hcl
    have h1 := hcl tb (List.mem_cons_self ..)
    have ih2 := ih (fun x hx => hcl x (List.mem_cons_of_mem _ hx))
    cases h2 : tb.2 with
    | true => simp [List.filter_cons, h1, h2, ih2]
    | false => simp [List.filter_cons, h1, h2, ih2]

/-! ### C3: match count versus `isMatch` segments -/

/-- C3 (amended).  The independent global match count equals the number of
`isMatch = true` segments whenever whole-word search is off, or the query
starts and ends with word characters. -/
theorem C3_matchCount_eq_isMatch_segments (content query : List Char)
    (options : SearchOptions)
    (h : options.wholeWord = false ∨ wordEnds query = true) :
    searchMatchesCount content query options =
      ((getHighlightParts content query options).filter (fun sg => sg.isMatch)).length := by
  unfold searchMatchesCount getHighlightParts
  by_cases hc : content.isEmpty
  · simp [hc]
  · cases query with
    | nil => simp [hc]
    | cons qh qt =>
      simp only [if_neg hc]
      have hcond : options.wholeWord = false ∨
          (isWordChar qh = true ∧ isWordChar (qt.getLastD qh) = true) := by
        rcases h with h | h
        · exact Or.inl h
        · exact Or.inr (by simpa [wordEnds] using h)
      rw [countMatchesF_eq_filter options.caseSensitive options.wholeWord qh qt
        content.length none ([] : List Char) content]
      exact (filter_length_of_classified options.caseSensitive options.wholeWord (qh :: qt) _
        (scanTokens_classified hcond content)).symm

/-- C3 counterexample to the claim as stated: for the whole-word query
`"!"` over `"a!b"` the global regex finds one match, but the re-classified
segments contain no `isMatch = true` entry (the anchored `^\b!\b$` test
fails on the isolated token `"!"`). -/
theorem C3_counterexample :
    searchMatchesCount "a!b".data "!".data ⟨false, true⟩ = 1 ∧
    ((getHighlightParts "a!b".data "!".data ⟨false, true⟩).filter
        (fun sg => sg.isMatch)).length = 0 := by
  decide

/-- Witness for C3 (amended) at a concrete input satisfying its hypothesis. -/
theorem C3_witness :
    ((⟨true, true⟩ : SearchOptions).wholeWord = false ∨ wordEnds "ab".data = true) ∧
    searchMatchesCount "ab ab".data "ab".data ⟨true, true⟩ =
      ((getHighlightParts "ab ab".data "ab".data ⟨true, true⟩).filter
        (fun sg => sg.isMatch)).length :=
  ⟨Or.inr (by decide),
    C3_matchCount_eq_isMatch_segments "ab ab".data "ab".data ⟨true, true⟩
      (Or.inr (by decide))⟩

/-! ### C4: the empty query -/

/-- C4 counterexample to the claim as stated: on empty content the code
returns an empty segment list (`if (!content) return []`), not a single
non-matching segment spanning the (empty) text. -/
theorem C4_counterexample :
    getHighlightParts [] [] ⟨false, false⟩ = [] ∧
    getHighlightParts [] [] ⟨false, false⟩ ≠ [⟨[], false⟩] := by
  decide

/-- C4 (amended).  The empty query yields a zero match count for every
content; for non-empty content it yields exactly one non-matching segment
spanning the whole text; for empty content the segment list is empty. -/
theorem C4_empty_query (content : List Char) (options : SearchOptions)
    (c : Char) (rest : List Char) :
    searchMatchesCount content [] options = 0 ∧
    getHighlightParts (c :: rest) [] options = [⟨c :: rest, false⟩] ∧
    getHighlightParts [] [] options = [] := by
  refine ⟨?_, rfl, rfl⟩
  cases content <;> rfl

/-! ### C9: metacharacter escaping -/

/-- C9.  The query compiler escapes all regex metacharacters, so the
compiled pattern matches only the literal query text (the model's matcher
is the semantics of that escaped pattern).  At the spec's probes, for every
option combination: query `"a.b*c"` finds exactly one match in `"a.b*c"`
and none in `"aXbYYYc"`. -/
theorem C9_metachar_literal (c w : Bool) :
    searchMatchesCount "a.b*c".data "a.b*c".data ⟨c, w⟩ = 1 ∧
    searchMatchesCount "aXbYYYc".data "a.b*c".data ⟨c, w⟩ = 0 := by
  cases c <;> cases w <;> decide

/-! ### C10: cyclic match navigation -/

/-- C10.  With a positive total, `handleNextMatch` is the cyclic successor
`(idx + 1) % total` and `handlePrevMatch` is `(idx - 1 + total) % total`
(stated over the integers, as the source computes it); with total 0 both
are no-ops; and from index 0 with total 3 the next-sequence is 1, 2, 0
while prev yields 2. -/
theorem C10_navigator (n idx : Nat) :
    handleNextMatch (n + 1) idx = (idx + 1) % (n + 1) ∧
    (handlePrevMatch (n + 1) idx : Int) =
      ((idx : Int) - 1 + ((n : Int) + 1)) % ((n : Int) + 1) ∧
    handleNextMatch 0 idx = idx ∧
    handlePrevMatch 0 idx = idx ∧
    handleNextMatch 3 0 = 1 ∧ handleNextMatch 3 1 = 2 ∧ handleNextMatch 3 2 = 0 ∧
    handlePrevMatch 3 0 = 2 := by
  refine ⟨by simp [handleNextMatch], ?_, rfl, rfl, rfl, rfl, rfl, rfl⟩
  have h1 : handlePrevMatch (n + 1) idx = (idx + n) % (n + 1) := by
    simp [handlePrevMatch]
  have h2 : ((idx : Int) - 1 + ((n : Int) + 1)) = (idx : Int) + (n : Int) := by ring
  rw [h1, h2]
  push_cast
  ring

/-! ### C5: navigator reset on state changes -/

/-- C5 counterexample to the claim as stated: toggling the case-sensitivity
option does not reset `currentMatchIndex` to 0 (the toggle buttons only
call `setSearchOptions`). -/
theorem C5_counterexample :
    (toggleCaseSensitive
        ⟨"a".data, ⟨false, false⟩, 2, true, "aaa".data⟩).currentMatchIndex ≠ 0 := by
  decide

/-- C5 (amended).  Editing the query text resets `currentMatchIndex` to 0;
a document change resets it to 0 only when it comes with a (non-empty)
initial search query, and otherwise clears the query but leaves the index
untouched; toggling either search option changes only that option; and the
total match count is a derived value, recomputed from the current
document/query/options pair after every transition. -/
theorem C5_state_transitions (st : WorkspaceSearchState) (v content : List Char)
    (c : Char) (rest : List Char) :
    (onSearchInputChange v st).currentMatchIndex = 0 ∧
    (onSearchInputChange v st).searchQuery = v ∧
    totalMatches (onSearchInputChange v st) =
      searchMatchesCount st.noteContent v st.searchOptions ∧
    (toggleCaseSensitive st).currentMatchIndex = st.currentMatchIndex ∧
    (toggleCaseSensitive st).searchOptions.caseSensitive =
      !st.searchOptions.caseSensitive ∧
    (toggleCaseSensitive st).searchOptions.wholeWord = st.searchOptions.wholeWord ∧
    totalMatches (toggleCaseSensitive st) = searchMatchesCount st.noteContent
      st.searchQuery ⟨!st.searchOptions.caseSensitive, st.searchOptions.wholeWord⟩ ∧
    (toggleWholeWord st).currentMatchIndex = st.currentMatchIndex ∧
    (toggleWholeWord st).searchOptions.wholeWord = !st.searchOptions.wholeWord ∧
    (onActiveNoteChange content (c :: rest) st).currentMatchIndex = 0 ∧
    (onActiveNoteChange content (c :: rest) st).searchQuery = c :: rest ∧
    (onActiveNoteChange content [] st).searchQuery = [] ∧
    (onActiveNoteChange content [] st).currentMatchIndex = st.currentMatchIndex ∧
    totalMatches (onActiveNoteChange content (c :: rest) st) =
      searchMatchesCount content (c :: rest) st.searchOptions := by
  refine ⟨rfl, rfl, rfl, rfl, rfl, rfl, rfl, rfl, rfl, rfl, rfl, rfl, rfl, rfl⟩

/-! ### C1: the tree highlighter versus the raw-text segmenter

`HighlightBackdrop` (Workspace.tsx lines 154-186) renders the raw document
through `getHighlightParts` and numbers the `isMatch` parts 0, 1, … in
order; `HighlightElements` (lines 195-216) applies `getHighlightParts` to
every string child of the rendered tree, so the preview's `mark` elements
appear in leaf-traversal order.  The ordered match sequences of the two
views are modelled by `rawMatchSeq` and `treeMatchSeq` below. -/

/-- Without word boundaries the match attempt ignores the preceding
character. -/
theorem matchAt_false_prev (cs : Bool) (q : List Char) (p p' : Option Char) (s : List Char) :
    matchAt cs false q p s = matchAt cs false q p' s := by
  simp [matchAt]

/-- A successful non-whole-word match attempt still succeeds on an extended
input. -/
theorem matchAt_extend {cs : Bool} {q s t : List Char}
    (h : matchAt cs false q none s = true) : matchAt cs false q none (s ++ t) = true := by
  unfold matchAt at h ⊢
  simp only [Bool.not_false, Bool.true_or, Bool.and_true] at h ⊢
  rw [List.isPrefixOf_iff_prefix] at h ⊢
  have happ : foldStr cs (s ++ t) = foldStr cs s ++ foldStr cs t := List.map_append ..
  rw [happ]
  exact h.trans (List.prefix_append ..)

/-- A successful non-whole-word match attempt that fits inside the first
part of an appended input already succeeds on that part alone. -/
theorem matchAt_shorten {cs : Bool} {q s t : List Char}
    (h : matchAt cs false q none (s ++ t) = true) (hlen : q.length ≤ s.length) :
    matchAt cs false q none s = true := by
  unfold matchAt at h ⊢
  simp only [Bool.not_false, Bool.true_or, Bool.and_true] at h ⊢
  rw [List.isPrefixOf_iff_prefix] at h ⊢
  have happ : foldStr cs (s ++ t) = foldStr cs s ++ foldStr cs t := List.map_append ..
  rw [happ] at h
  refine List.prefix_of_prefix_length_le h (List.prefix_append ..) ?_
  rw [foldStr_length, foldStr_length]
  exact hlen

/-- For non-whole-word search the found matches do not depend on the fuel
(when sufficient) nor on the previous-character state. -/
theorem findMatchesF_any (cs : Bool) (qh : Char) (qt : List Char) :
    ∀ (f g : Nat) (prev prev' : Option Char) (s : List Char),
    s.length ≤ f → s.length ≤ g →
    findMatchesF cs false qh qt f prev s = findMatchesF cs false qh qt g prev' s := by
  intro f
  induction f with
  | zero =>
    intro g prev prev' s hf hg
    have hs : s = [] := List.eq_nil_of_length_eq_zero (Nat.le_zero.mp hf)
    subst hs
    cases g <;> rfl
  | succ f ih =>
    intro g prev prev' s hf hg
    cases s with
    | nil => cases g <;> rfl
    | cons c rest =>
      cases g with
      | zero => simp at hg
      | succ g' =>
        rw [List.length_cons, Nat.succ_le_succ_iff] at hf hg
        have hsw : matchAt cs false (qh :: qt) prev (c :: rest) =
            matchAt cs false (qh :: qt) prev' (c :: rest) :=
          matchAt_false_prev ..
        by_cases h : matchAt cs false (qh :: qt) prev (c :: rest)
        · simp only [findMatchesF, if_pos h, if_pos (hsw ▸ h)]
          congr 1
          refine ih g' _ _ _ ?_ ?_ <;> rw [List.length_drop] <;> omega
        · simp only [findMatchesF, if_neg h, if_neg (hsw ▸ h)]
          exact ih g' _ _ _ hf hg

/-- One-step unfolding of `findMatchesL` for non-whole-word search. -/
theorem findMatchesL_cons (cs : Bool) (qh : Char) (qt : List Char) (c : Char)
    (rest : List Char) :
    findMatchesL cs false qh qt (c :: rest) =
      if matchAt cs false (qh :: qt) none (c :: rest) then
        (c :: rest).take (qt.length + 1) :: findMatchesL cs false qh qt (rest.drop qt.length)
      else findMatchesL cs false qh qt rest := by
  unfold findMatchesL
  simp only [List.length_cons, findMatchesF]
  by_cases h : matchAt cs false (qh :: qt) none (c :: rest)
  · rw [if_pos h, if_pos h]
    congr 1
    refine findMatchesF_any cs qh qt _ _ _ _ _ ?_ le_rfl
    rw [List.length_drop]
    omega
  · rw [if_neg h, if_neg h]
    exact findMatchesF_any cs qh qt _ _ _ _ _ le_rfl le_rfl

/-- A leaf boundary is clean for a (non-whole-word) scan when no match of
the combined scan of `s1 ++ s2` starts in `s1` and ends in `s2`: the scan
below re-traces the leftmost non-overlapping scan and fails exactly when a
found match crosses the end of `s1`. -/
def cleanScanF (cs : Bool) (qh : Char) (qt : List Char) :
    Nat → List Char → List Char → Bool
  | _, [], _ => true
  | 0, _ :: _, _ => false
  | f + 1, c :: r1, s2 =>
    if matchAt cs false (qh :: qt) none ((c :: r1) ++ s2) then
      if qt.length ≤ r1.length then cleanScanF cs qh qt f (r1.drop qt.length) s2 else false
    else
      cleanScanF cs qh qt f r1 s2

/-- Clean-boundary check with the fuel instantiated. -/
def cleanScan (cs : Bool) (qh : Char) (qt : List Char) (s1 s2 : List Char) : Bool :=
  cleanScanF cs qh qt s1.length s1 s2

/-- When the boundary between `s1` and `s2` is clean, the matches of the
concatenation are the matches of the parts, in order. -/
theorem findMatchesL_append (cs : Bool) (qh : Char) (qt : List Char) :
    ∀ (f : Nat) (s1 s2 : List Char), s1.length ≤ f →
    cleanScanF cs qh qt f s1 s2 = true →
    findMatchesL cs false qh qt (s1 ++ s2) =
      findMatchesL cs false qh qt s1 ++ findMatchesL cs false qh qt s2 := by
  intro f
  induction f with
  | zero =>
    intro s1 s2 hf _
    have hs : s1 = [] := List.eq_nil_of_length_eq_zero (Nat.le_zero.mp hf)
    subst hs
    simp [findMatchesL, findMatchesF]
  | succ f ih =>
    intro s1 s2 hf hclean
    cases s1 with
    | nil => simp [findMatchesL, findMatchesF]
    | cons c r1 =>
      rw [List.length_cons, Nat.succ_le_succ_iff] at hf
      by_cases h : matchAt cs false (qh :: qt) none ((c :: r1) ++ s2)
      · simp only [cleanScanF, if_pos h] at hclean
        have hlen : qt.length ≤ r1.length := by
          by_contra hlt
          rw [if_neg hlt] at hclean
          cases hclean
        rw [if_pos hlen] at hclean
        have hq : (qh :: qt).length ≤ (c :: r1).length := by
          rw [List.length_cons, List.length_cons]
          omega
        have h1 : matchAt cs false (qh :: qt) none (c :: r1) = true :=
          matchAt_shorten h hq
        rw [List.cons_append, findMatchesL_cons, findMatchesL_cons]
        rw [if_pos (by rw [← List.cons_append]; exact h), if_pos h1]
        have htake : (c :: (r1 ++ s2)).take (qt.length + 1) =
            (c :: r1).take (qt.length + 1) := by
          rw [← List.cons_append]
          exact List.take_append_of_le_length (by rw [List.length_cons]; omega)
        have hdrop : (r1 ++ s2).drop qt.length = r1.drop qt.length ++ s2 :=
          List.drop_append_of_le_length hlen
        rw [htake, hdrop, ih (r1.drop qt.length) s2 (by rw [List.length_drop]; omega) hclean]
        simp [List.cons_append]
      · simp only [cleanScanF, if_neg h] at hclean
        have h1 : matchAt cs false (qh :: qt) none (c :: r1) = false := by
          cases h2 : matchAt cs false (qh :: qt) none (c :: r1) with
          | false => rfl
          | true => exact absurd (matchAt_extend h2) h
        rw [List.cons_append, findMatchesL_cons, findMatchesL_cons]
        rw [if_neg (by rw [← List.cons_append]; exact h), if_neg (by rw [h1]; simp)]
        exact ih r1 s2 hf hclean

/-- Every internal leaf boundary is clean: leaf `i`'s end is a clean
boundary for the scan of the remaining text. -/
def noLeafStraddle (cs : Bool) (qh : Char) (qt : List Char) : List (List Char) → Bool
  | [] => true
  | L :: ls => cleanScan cs qh qt L ls.flatten && noLeafStraddle cs qh qt ls

/-- With clean leaf boundaries, the matches of the whole document are the
concatenation of the per-leaf matches. -/
theorem findMatchesL_flatten (cs : Bool) (qh : Char) (qt : List Char) :
    ∀ (ls : List (List Char)), noLeafStraddle cs qh qt ls = true →
    findMatchesL cs false qh qt ls.flatten =
      (ls.map (findMatchesL cs false qh qt)).flatten := by
  intro ls
  induction ls with
  | nil => intro _; rfl
  | cons L ls ih =>
    intro h
    have h12 : cleanScan cs qh qt L ls.flatten = true ∧
        noLeafStraddle cs qh qt ls = true := by
      simpa [noLeafStraddle] using h
    rw [List.flatten_cons, findMatchesL_append cs qh qt L.length L ls.flatten le_rfl h12.1,
      ih h12.2, List.map_cons, List.flatten_cons]

mutual
/-- The rendered content tree of the preview, reduced to its text-bearing
structure: text leaves and elements with child lists (the element tag is
irrelevant to highlighting). -/
inductive ContentTree where
  | text : List Char → ContentTree
  | node : ContentForest → ContentTree
/-- A list of sibling content trees. -/
inductive ContentForest where
  | nil : ContentForest
  | cons : ContentTree → ContentForest → ContentForest
end

mutual
/-- The text leaves of a tree in traversal order. -/
def ContentTree.leaves : ContentTree → List (List Char)
  | .text s => [s]
  | .node f => ContentForest.leaves f
/-- The text leaves of a forest in traversal order. -/
def ContentForest.leaves : ContentForest → List (List Char)
  | .nil => []
  | .cons t f => ContentTree.leaves t ++ ContentForest.leaves f
end

/-- The text content of a tree: its leaves concatenated in traversal
order. -/
def treeText (t : ContentTree) : List Char :=
  t.leaves.flatten

/-- The ordered sequence of matched substrings of the raw view: the
`isMatch` parts of `getHighlightParts`, in order (`HighlightBackdrop`
numbers exactly these `mark` elements 0, 1, …). -/
def rawMatchSeq (content query : List Char) (options : SearchOptions) : List (List Char) :=
  ((getHighlightParts content query options).filter (fun sg => sg.isMatch)).map Segment.text

/-- The ordered sequence of matched substrings of the preview:
`HighlightElements` runs `getHighlightParts` on each text leaf, and the
resulting `mark` elements appear in leaf-traversal order. -/
def treeMatchSeq (query : List Char) (options : SearchOptions) (t : ContentTree) :
    List (List Char) :=
  (t.leaves.map (fun L => rawMatchSeq L query options)).flatten

/-- Clean-boundary condition lifted to an arbitrary query (trivial for the
empty query, which matches nothing). -/
def noStraddleQ (cs : Bool) (query : List Char) (leafTexts : List (List Char)) : Bool :=
  match query with
  | [] => true
  | qh :: qt => noLeafStraddle cs qh qt leafTexts

theorem rawMatchSeq_empty_query (content : List Char) (options : SearchOptions) :
    rawMatchSeq content [] options = [] := by
  unfold rawMatchSeq getHighlightParts
  by_cases hc : content.isEmpty <;> simp [hc]

/-- For non-whole-word search the raw match sequence is exactly the list of
substrings found by the scan. -/
theorem rawMatchSeq_eq_findMatches (cs : Bool) (qh : Char) (qt : List Char)
    (content : List Char) :
    rawMatchSeq content (qh :: qt) ⟨cs, false⟩ = findMatchesL cs false qh qt content := by
  unfold rawMatchSeq getHighlightParts
  by_cases hc : content.isEmpty
  · rw [List.isEmpty_iff] at hc
    subst hc
    simp [findMatchesL, findMatchesF]
  · simp only [if_neg hc]
    rw [filter_map_of_classified cs false (qh :: qt) _
      (scanTokens_classified (Or.inl rfl) content)]
    exact (findMatchesF_eq_filter cs false qh qt content.length none [] content).symm

/-- C1 counterexample to the claim as stated: the tree with the two leaves
`"a"`, `"b"` has text content `"ab"`, yet for the query `"ab"` the tree
highlighter finds no match while the raw segmenter finds one — the match
straddles the leaf boundary. -/
theorem C1_counterexample :
    treeText (ContentTree.node (ContentForest.cons (ContentTree.text "a".data)
        (ContentForest.cons (ContentTree.text "b".data) ContentForest.nil))) = "ab".data ∧
    treeMatchSeq "ab".data ⟨false, false⟩
        (ContentTree.node (ContentForest.cons (ContentTree.text "a".data)
          (ContentForest.cons (ContentTree.text "b".data) ContentForest.nil))) ≠
      rawMatchSeq "ab".data "ab".data ⟨false, false⟩ := by
  decide

/-- C1 (amended).  For non-whole-word search, on a tree whose leaf
concatenation is the raw text and none of whose leaf boundaries is crossed
by a found match, the tree highlighter yields the same ordered sequence of
matched substrings — hence the same count and ordinals — as the raw-text
segmenter. -/
theorem C1_tree_matches_raw (t : ContentTree) (query : List Char)
    (options : SearchOptions) (content : List Char)
    (hww : options.wholeWord = false)
    (htext : treeText t = content)
    (hclean : noStraddleQ options.caseSensitive query t.leaves = true) :
    treeMatchSeq query options t = rawMatchSeq content query options := by
  subst htext
  obtain ⟨cs, ww⟩ := options
  simp only at hww
  subst hww
  cases query with
  | nil =>
    unfold treeMatchSeq treeText
    rw [rawMatchSeq_empty_query]
    simp [rawMatchSeq_empty_query]
  | cons qh qt =>
    unfold treeMatchSeq treeText
    rw [rawMatchSeq_eq_findMatches,
      findMatchesL_flatten cs qh qt t.leaves hclean]
    simp only [rawMatchSeq_eq_findMatches]

/-- Witness for C1 (amended) at a concrete input satisfying all three
hypotheses: leaves `"ax"`, `"bx"`, query `"x"`. -/
theorem C1_witness :
    ((⟨false, false⟩ : SearchOptions).wholeWord = false ∧
      treeText (ContentTree.node (ContentForest.cons (ContentTree.text "ax".data)
        (ContentForest.cons (ContentTree.text "bx".data) ContentForest.nil))) =
        "axbx".data ∧
      noStraddleQ false "x".data
        (ContentTree.leaves (ContentTree.node (ContentForest.cons
          (ContentTree.text "ax".data)
          (ContentForest.cons (ContentTree.text "bx".data) ContentForest.nil)))) = true) ∧
    treeMatchSeq "x".data ⟨false, false⟩
        (ContentTree.node (ContentForest.cons (ContentTree.text "ax".data)
          (ContentForest.cons (ContentTree.text "bx".data) ContentForest.nil))) =
      rawMatchSeq "axbx".data "x".data ⟨false, false⟩ :=
  ⟨⟨rfl, by decide, by decide⟩,
    C1_tree_matches_raw
      (ContentTree.node (ContentForest.cons (ContentTree.text "ax".data)
        (ContentForest.cons (ContentTree.text "bx".data) ContentForest.nil)))
      "x".data ⟨false, false⟩ "axbx".data rfl (by decide) (by decide)⟩

/-! ### HTML-to-Markdown conversion (the `turndown` pipeline)

The source configures a TurndownService (Workspace.tsx lines 65-151) with
custom rules for `code`, `pre`, IDE pastes, `mark`, `span` and `p`, and a
wrapper `turndown(html)` that replaces non-breaking spaces beforehand and
post-processes the result (trim line ends, collapse runs of three or more
newlines to two, trim the whole).  The model below embeds the HTML fragment
as a tree, the custom rules verbatim, and the library engine to the extent
the rules rely on it: children are converted first and joined with the
library's newline-merging join (at most two newlines between chunks), and
rules are tried in the service's precedence order — a rule added later via
`addRule` is consulted first, so the dispatch order is `p`, `span`, `mark`,
IDE paste, `pre`, `code`, then the built-in rules (modelled here by the
`strong` rule and the generic block/inline fallback; markdown escaping of
text and the library's blank-node handling are not modelled — no claim
probes them). -/

mutual
/-- An HTML fragment node: a text node, or an element carrying its tag
name, `class` attribute and `style` attribute (the empty list models an
absent attribute, matching `getAttribute(...) || ''` in the source) and its
children. -/
inductive HtmlNode where
  | text : List Char → HtmlNode
  | elem : List Char → List Char → List Char → HtmlForest → HtmlNode
/-- A list of sibling HTML nodes. -/
inductive HtmlForest where
  | nil : HtmlForest
  | cons : HtmlNode → HtmlForest → HtmlForest
end

/-- JavaScript `String.prototype.trim` (over the whitespace the pipeline
can produce). -/
def trimStr (s : List Char) : List Char :=
  ((s.dropWhile Char.isWhitespace).reverse.dropWhile Char.isWhitespace).reverse

/-- JavaScript `String.prototype.trimEnd`. -/
def trimEndStr (s : List Char) : List Char :=
  (s.reverse.dropWhile Char.isWhitespace).reverse

/-- The preprocessing step of the `turndown` wrapper: non-breaking spaces
(literal `\u00a0`; the `&nbsp;` entity is already decoded in a parsed
fragment) become ordinary spaces. -/
def replaceNbsp (s : List Char) : List Char :=
  s.map (fun c => if c = '\u00A0' then ' ' else c)

/-- JavaScript `String.prototype.includes`: does `needle` occur as a
contiguous substring of `hay`? -/
def containsSub (needle : List Char) : List Char → Bool
  | [] => needle.isEmpty
  | c :: t => needle.isPrefixOf (c :: t) || containsSub needle t

/-- The `idePaste` filter (Workspace.tsx lines 102-112): known code-editor
class fragments on the class attribute, or monospace font names in the
inline style. -/
def hasCodeEditorSignals (clsAttr styleAttr : List Char) : Bool :=
  (containsSub "monaco".data clsAttr || containsSub "vscode".data clsAttr ||
      containsSub "ace_".data clsAttr || containsSub "hljs".data clsAttr) ||
    (containsSub "monospace".data styleAttr || containsSub "Courier".data styleAttr ||
      containsSub "Consolas".data styleAttr)

/-- The language scan `/language-(\w+)/` of the `pre` rule: leftmost
occurrence of `language-` followed by at least one word character; the
captured name is the maximal word-character run. -/
def findLanguage : List Char → Option (List Char)
  | [] => none
  | c :: rest =>
    if "language-".data.isPrefixOf (c :: rest) then
      let name := ((c :: rest).drop 9).takeWhile isWordChar
      if name.isEmpty then findLanguage rest else some name
    else findLanguage rest

mutual
/-- `node.querySelector('code')` restricted to what the `pre` rule reads:
the class attribute of the first `code` descendant in document order. -/
def firstCodeClass : HtmlForest → Option (List Char)
  | .nil => none
  | .cons n f =>
    match firstCodeClassNode n with
    | some cls => some cls
    | none => firstCodeClass f
/-- First `code` element's class within a single node (the node itself or
its descendants). -/
def firstCodeClassNode : HtmlNode → Option (List Char)
  | .text _ => none
  | .elem tag cls _ ch => if tag = "code".data then some cls else firstCodeClass ch
end

/-- Block-level tags of the library's default rule (the subset that can
reach the fallback here). -/
def isBlockTag (tag : List Char) : Bool :=
  ["div", "blockquote", "h1", "h2", "h3", "h4", "h5", "h6", "ul", "ol", "li",
      "table", "tr", "td", "th", "header", "footer", "section", "article",
      "hr", "address", "figure"].any (fun t => t.data == tag)

/-- The library's `join` of adjacent outputs: keep the longer of the
trailing/leading newline runs, capped at two. -/
def joinMd (a b : List Char) : List Char :=
  let s1 := (a.reverse.dropWhile (fun c => c = '\n')).reverse
  let s2 := b.dropWhile (fun c => c = '\n')
  let n := min (max (a.length - s1.length) (b.length - s2.length)) 2
  s1 ++ List.replicate n '\n' ++ s2

/-- The `code` rule (Workspace.tsx lines 76-85): inside `pre` the content
passes through unchanged; elsewhere the trimmed content is wrapped in
single backticks, or nothing if empty. -/
def codeRule (parentTag : Option (List Char)) (content : List Char) : List Char :=
  if parentTag = some "pre".data then content
  else
    let trimmed := trimStr content
    if trimmed.isEmpty then [] else '`' :: (trimmed ++ ['`'])

/-- The `pre` rule (Workspace.tsx lines 88-99): fenced block labelled with
the language found in the element's class concatenated with its `code`
child's class. -/
def preRule (clsAttr codeClass content : List Char) : List Char :=
  let lang := (findLanguage (clsAttr ++ (' ' :: codeClass))).getD []
  "\n\n```".data ++ lang ++ '\n' :: (trimStr content ++ "\n```\n\n".data)

/-- The `idePaste` rule's replacement (Workspace.tsx line 111): an
unlabelled fenced block. -/
def idePasteRule (content : List Char) : List Char :=
  "\n\n```\n".data ++ trimStr content ++ "\n```\n\n".data

/-- The `paragraph` rule (Workspace.tsx lines 127-133): trimmed content
wrapped in one newline on each side, or nothing if empty. -/
def pRule (content : List Char) : List Char :=
  let trimmed := trimStr content
  if trimmed.isEmpty then [] else '\n' :: (trimmed ++ ['\n'])

/-- The library's built-in `strong` rule (double-asterisk delimiters). -/
def strongRule (content : List Char) : List Char :=
  if (trimStr content).isEmpty then [] else "**".data ++ content ++ "**".data

mutual
/-- Convert one node, given the enclosing element's tag (the `code` rule
inspects `node.parentNode.nodeName`).  The rules are tried in the
service's precedence order; unmatched tags fall through to the generic
block/inline default. -/
def convertNode (parentTag : Option (List Char)) : HtmlNode → List Char
  | .text s => replaceNbsp s
  | .elem tag cls style ch =>
    if tag = "p".data then
      pRule (convertForest (some tag) ch)
    else if tag = "span".data then
      convertForest (some tag) ch
    else if tag = "mark".data then
      convertForest (some tag) ch
    else if (tag = "div".data || tag = "pre".data) && hasCodeEditorSignals cls style then
      idePasteRule (convertForest (some tag) ch)
    else if tag = "pre".data then
      preRule cls ((firstCodeClass ch).getD []) (convertForest (some tag) ch)
    else if tag = "code".data then
      codeRule parentTag (convertForest (some tag) ch)
    else if tag = "strong".data || tag = "b".data then
      strongRule (convertForest (some tag) ch)
    else if isBlockTag tag then
      '\n' :: '\n' :: (convertForest (some tag) ch ++ ['\n', '\n'])
    else
      convertForest (some tag) ch
/-- Convert a forest: children outputs reduced left to right with the
newline-merging join, starting from the empty string. -/
def convertForest (parentTag : Option (List Char)) : HtmlForest → List Char
  | .nil => []
  | .cons n f => convertForestAux parentTag (joinMd [] (convertNode parentTag n)) f
/-- Left fold of the join over the remaining siblings. -/
def convertForestAux (parentTag : Option (List Char)) (acc : List Char) :
    HtmlForest → List Char
  | .nil => acc
  | .cons n f => convertForestAux parentTag (joinMd acc (convertNode parentTag n)) f
end

/-- Post-processing step (a) of the `turndown` wrapper: trim trailing
whitespace from every newline-separated line. -/
def trimLinesEndGo : List Char → List Char → List Char
  | cur, [] => trimEndStr cur.reverse
  | cur, c :: rest =>
    if c = '\n' then trimEndStr cur.reverse ++ '\n' :: trimLinesEndGo [] rest
    else trimLinesEndGo (c :: cur) rest

/-- Trim every line's trailing whitespace, never leading. -/
def trimLinesEnd (s : List Char) : List Char :=
  trimLinesEndGo [] s

/-- Post-processing step (b): collapse every run of three or more newlines
to exactly two (`/\n{3,}/g`). -/
def collapseNlGo : Nat → List Char → List Char
  | n, [] => List.replicate (min n 2) '\n'
  | n, c :: rest =>
    if c = '\n' then collapseNlGo (n + 1) rest
    else List.replicate (min n 2) '\n' ++ c :: collapseNlGo 0 rest

/-- Collapse newline runs over the whole string. -/
def collapseNl (s : List Char) : List Char :=
  collapseNlGo 0 s

/-- The `turndown` wrapper (Workspace.tsx lines 135-151) on a parsed
fragment: convert, trim line ends, collapse newline runs, trim. -/
def turndown (fragment : HtmlForest) : List Char :=
  trimStr (collapseNl (trimLinesEnd (convertForest none fragment)))

mutual
/-- `innerHTML`-style serialization of a node (the string the copy handler
reads back from the cloned container). -/
def serializeNode : HtmlNode → List Char
  | .text s => s
  | .elem tag cls style ch =>
    '<' :: (tag ++
      (if cls.isEmpty then [] else " class=".data ++ '"' :: (cls ++ ['"'])) ++
      (if style.isEmpty then [] else " style=".data ++ '"' :: (style ++ ['"'])) ++
      '>' :: (serializeForest ch ++ '<' :: '/' :: (tag ++ ['>'])))
/-- Serialization of a forest. -/
def serializeForest : HtmlForest → List Char
  | .nil => []
  | .cons n f => serializeNode n ++ serializeForest f
end

/-- The preview `onCopy` handler (Workspace.tsx lines 614-628, same pairing
as `handleCopySelection` lines 376-401): the cloned selection's HTML is
converted to Markdown for the `text/plain` slot, while the `text/html` slot
receives the HTML wrapped in a sans-serif `div`. -/
def previewOnCopy (sel : HtmlForest) : List Char × List Char :=
  (turndown sel,
    "<div style=".data ++ '"' :: ("font-family: sans-serif;".data ++ '"' :: '>' ::
      (serializeForest sel ++ "</div>".data)))

/-! ### C6: clipboard slots on copy from the preview -/

/-- C6 counterexample to the claim as stated: the `text/html` slot is not
identical to the serialized cloned selection — the handler wraps it in a
sans-serif `div`. -/
theorem C6_counterexample :
    (previewOnCopy (HtmlForest.cons (HtmlNode.text "x".data) HtmlForest.nil)).2 ≠
      serializeForest (HtmlForest.cons (HtmlNode.text "x".data) HtmlForest.nil) := by
  decide

/-- C6 (amended).  On copy from the preview, the `text/plain` slot is the
selection converted through the HTML-to-Markdown pipeline, and the
`text/html` slot is the selection's serialized HTML wrapped in
`<div style="font-family: sans-serif;">…</div>` — hence never byte-identical
to the unwrapped HTML. -/
theorem C6_preview_copy_slots (sel : HtmlForest) :
    (previewOnCopy sel).1 = turndown sel ∧
    (previewOnCopy sel).2 = "<div style=".data ++ '"' :: ("font-family: sans-serif;".data ++
      '"' :: '>' :: (serializeForest sel ++ "</div>".data)) ∧
    (previewOnCopy sel).2 ≠ serializeForest sel := by
  refine ⟨rfl, rfl, ?_⟩
  intro h
  have hl := congrArg List.length h
  have h1 : ("<div style=".data).length = 11 := rfl
  have h2 : ("font-family: sans-serif;".data).length = 24 := rfl
  have h3 : ("</div>".data).length = 6 := rfl
  simp only [previewOnCopy, List.length_append, List.length_cons, h1, h2, h3] at hl
  omega

/-! ### C7: the paragraph rule -/

/-- C7 counterexample to the claim as stated: the paragraph rule emits a
single newline before and after the trimmed content, not a blank line (two
newlines) on each side. -/
theorem C7_counterexample :
    convertNode none (HtmlNode.elem "p".data [] []
        (HtmlForest.cons (HtmlNode.text "x".data) HtmlForest.nil)) = "\nx\n".data ∧
    "\nx\n".data ≠ "\n\nx\n\n".data := by
  decide

/-- C7 (amended).  For every `p` element the rendered content is trimmed;
if non-empty it is emitted with one newline (not a blank line) before and
one after; if empty the element emits nothing.  At the spec's probe the
whole pipeline maps `<p>Hello <strong>world</strong></p>` to
`Hello **world**`. -/
theorem C7_paragraph_rule (parentTag : Option (List Char)) (cls style : List Char)
    (children : HtmlForest) :
    (convertNode parentTag (HtmlNode.elem "p".data cls style children) =
      (let t := trimStr (convertForest (some "p".data) children)
       if t.isEmpty then [] else '\n' :: (t ++ ['\n']))) ∧
    turndown (HtmlForest.cons (HtmlNode.elem "p".data [] []
        (HtmlForest.cons (HtmlNode.text "Hello ".data)
          (HtmlForest.cons (HtmlNode.elem "strong".data [] []
              (HtmlForest.cons (HtmlNode.text "world".data) HtmlForest.nil))
            HtmlForest.nil)))
        HtmlForest.nil) = "Hello **world**".data := by
  exact ⟨rfl, by decide⟩

/-! ### C8: the code and pre rules -/

/-- C8 counterexample to the claim as stated: a `pre` element whose class
carries a code-editor signal (`hljs`) is captured by the higher-precedence
IDE-paste rule and emits an unlabelled fence, even though its classes
contain `language-python`. -/
theorem C8_counterexample :
    convertNode none (HtmlNode.elem "pre".data "hljs language-python".data []
        (HtmlForest.cons (HtmlNode.elem "code".data "language-python".data []
            (HtmlForest.cons (HtmlNode.text "x=1".data) HtmlForest.nil))
          HtmlForest.nil)) = "\n\n```\nx=1\n```\n\n".data ∧
    "\n\n```\nx=1\n```\n\n".data ≠ "\n\n```python\nx=1\n```\n\n".data := by
  decide

/-- C8 (amended).  A `code` element with immediate parent `pre` emits its
content unchanged, and with any other parent emits the trimmed content in
single backticks or nothing when empty.  A `pre` element without
code-editor signals emits two newlines, three backticks plus the language
scanned from its class concatenated with its `code` child's class, a
newline, the trimmed content, a newline, three backticks and two newlines;
a `pre` with such signals is taken by the IDE-paste rule instead and emits
the same template with no language.  At the spec's probes the pipeline maps
`<pre><code class="language-python">x=1</code></pre>` to
three backticks + `python`, newline, `x=1`, newline, three backticks, and a
bare `<code>foo</code>` to a backticked `foo`. -/
theorem C8_code_pre_rules (parentTag : Option (List Char)) (cls style : List Char)
    (children : HtmlForest) :
    (convertNode parentTag (HtmlNode.elem "code".data cls style children) =
      (if parentTag = some "pre".data then convertForest (some "code".data) children
       else
        (let t := trimStr (convertForest (some "code".data) children)
         if t.isEmpty then [] else '`' :: (t ++ ['`'])))) ∧
    (convertNode parentTag (HtmlNode.elem "pre".data cls style children) =
      (if hasCodeEditorSignals cls style then
        "\n\n```\n".data ++ trimStr (convertForest (some "pre".data) children) ++
          "\n```\n\n".data
       else
        "\n\n```".data ++
          ((findLanguage (cls ++ (' ' :: ((firstCodeClass children).getD [])))).getD []) ++
          '\n' :: (trimStr (convertForest (some "pre".data) children) ++
            "\n```\n\n".data))) ∧
    turndown (HtmlForest.cons (HtmlNode.elem "pre".data [] []
        (HtmlForest.cons (HtmlNode.elem "code".data "language-python".data []
            (HtmlForest.cons (HtmlNode.text "x=1".data) HtmlForest.nil))
          HtmlForest.nil))
        HtmlForest.nil) = "```python\nx=1\n```".data ∧
    turndown (HtmlForest.cons (HtmlNode.elem "code".data [] []
        (HtmlForest.cons (HtmlNode.text "foo".data) HtmlForest.nil))
        HtmlForest.nil) = "`foo`".data := by
  exact ⟨rfl, rfl, by decide, by decide⟩

end Notepad
